import Mathlib

/-!
Shallow embedding of the thesis data pipeline: entity resolution
(`creds_to_entity`), snapshot deduplication, pagination, per-period
aggregation with positive-clamped issuance deltas and share
normalization, sample weighting, the rate-limited API client's error
behaviour, and the inequality statistics (`gini`, Nakamoto
coefficient).  Machine floats are modelled by `ℚ`, Python ints by `ℤ`
or `ℕ`, Python dicts by ordered association lists, raised exceptions
by `Except`.
-/

namespace Thesis

/-! ### Ordered association lists: Python `dict` semantics -/

/-- Lookup of a key in an association list (first matching entry), the
Python `d.get(k)`. -/
def dictGet? {α β : Type} [DecidableEq α] (d : List (α × β)) (k : α) : Option β :=
  (d.find? (fun p => p.1 = k)).map (fun p => p.2)

/-- Python `d[k] = v`: replace the value of an existing key in place,
otherwise append the new entry at the end (insertion order preserved). -/
def dictInsert {α β : Type} [DecidableEq α] : List (α × β) → α → β → List (α × β)
  | [], k, v => [(k, v)]
  | (a, b) :: rest, k, v =>
      if a = k then (k, v) :: rest else (a, b) :: dictInsert rest k v

/-- Python `d.get(k, v0)`. -/
def dictGetD {α β : Type} [DecidableEq α] (d : List (α × β)) (k : α) (v0 : β) : β :=
  (dictGet? d k).getD v0

theorem dictInsert_nil {α β : Type} [DecidableEq α] (k : α) (v : β) :
    dictInsert ([] : List (α × β)) k v = [(k, v)] := rfl

theorem dictInsert_cons {α β : Type} [DecidableEq α]
    (a : α) (b : β) (rest : List (α × β)) (k : α) (v : β) :
    dictInsert ((a, b) :: rest) k v =
      if a = k then (k, v) :: rest else (a, b) :: dictInsert rest k v := rfl

theorem dictGet_nil {α β : Type} [DecidableEq α] (k : α) :
    dictGet? ([] : List (α × β)) k = none := rfl

theorem dictGet_cons {α β : Type} [DecidableEq α]
    (a : α) (b : β) (rest : List (α × β)) (k : α) :
    dictGet? ((a, b) :: rest) k = if a = k then some b else dictGet? rest k := by
  by_cases h : a = k <;> simp [dictGet?, List.find?, h]

theorem dictGet_insert_self {α β : Type} [DecidableEq α]
    (d : List (α × β)) (k : α) (v : β) :
    dictGet? (dictInsert d k v) k = some v := by
  induction d with
  | nil => simp [dictInsert, dictGet_cons]
  | cons p rest ih =>
    obtain ⟨a, b⟩ := p
    by_cases h : a = k
    · simp [dictInsert, h, dictGet_cons]
    · simp [dictInsert, if_neg h, dictGet_cons, h, ih]

theorem dictGet_insert_ne {α β : Type} [DecidableEq α]
    (d : List (α × β)) (k k' : α) (v : β) (h : k' ≠ k) :
    dictGet? (dictInsert d k v) k' = dictGet? d k' := by
  induction d with
  | nil => simp [dictInsert, dictGet_cons, dictGet_nil, Ne.symm h]
  | cons p rest ih =>
    obtain ⟨a, b⟩ := p
    by_cases hak : a = k
    · subst hak
      simp [dictInsert, dictGet_cons, Ne.symm h]
    · simp [dictInsert, if_neg hak, dictGet_cons, ih]

theorem mem_dictInsert {α β : Type} [DecidableEq α]
    (d : List (α × β)) (k : α) (v : β) (p : α × β)
    (hp : p ∈ dictInsert d k v) : p = (k, v) ∨ p ∈ d := by
  induction d with
  | nil => simpa [dictInsert] using hp
  | cons q rest ih =>
    obtain ⟨a, b⟩ := q
    by_cases h : a = k
    · simp only [dictInsert, if_pos h, List.mem_cons] at hp
      rcases hp with h1 | h2
      · exact Or.inl h1
      · exact Or.inr (List.mem_cons_of_mem _ h2)
    · simp only [dictInsert, if_neg h, List.mem_cons] at hp
      rcases hp with h1 | h2
      · exact Or.inr (by simp [h1])
      · rcases ih h2 with h3 | h4
        · exact Or.inl h3
        · exact Or.inr (List.mem_cons_of_mem _ h4)

theorem dictGet_eq_some_mem {α β : Type} [DecidableEq α]
    (d : List (α × β)) (k : α) (v : β)
    (h : dictGet? d k = some v) : (k, v) ∈ d := by
  induction d with
  | nil => simp [dictGet_nil] at h
  | cons p rest ih =>
    obtain ⟨a, b⟩ := p
    rw [dictGet_cons] at h
    by_cases hak : a = k
    · rw [if_pos hak] at h
      rcases h with h
      simp [hak, Option.some.injEq] at h
      simp [hak, h]
    · rw [if_neg hak] at h
      exact List.mem_cons_of_mem _ (ih h)

theorem dictGet_eq_none_not_mem {α β : Type} [DecidableEq α]
    (d : List (α × β)) (k : α)
    (h : dictGet? d k = none) : ∀ p ∈ d, p.1 ≠ k := by
  induction d with
  | nil => intro p hp; simp at hp
  | cons q rest ih =>
    obtain ⟨a, b⟩ := q
    rw [dictGet_cons] at h
    intro p hp
    by_cases hak : a = k
    · rw [if_pos hak] at h
      simp at h
    · rw [if_neg hak] at h
      rcases List.mem_cons.mp hp with h1 | h2
      · simpa [h1] using hak
      · exact ih h p h2

/-! ### Entity resolver
`creds_to_entity` from `chatgpt/ethereum_chatgpt.py` and
`chatgpt/preprocess_validators.py`: credentials are modelled at the
decoded-byte level (`bytes.fromhex(creds_hex[2:])` becomes the byte
list `raw`). -/

/-- Lowercase hex digit, as produced by Python `bytes.hex()`. -/
def hexDigitChar (n : Nat) : Char :=
  if n < 10 then Char.ofNat (48 + n) else Char.ofNat (87 + n)

/-- Two lowercase hex digits of one byte. -/
def byteToHex (b : Nat) : String :=
  String.mk [hexDigitChar (b / 16), hexDigitChar (b % 16)]

/-- Python `bytes.hex()`: lowercase hex of a byte string. -/
def bytesToHex (bs : List Nat) : String :=
  String.join (bs.map byteToHex)

/-- `creds_to_entity(creds_hex, fallback_index)`:
if the first byte is 1 or 2 and the credential is exactly 32 bytes,
the entity key is the lowercase hex address of the last 20 bytes with
a `0x` prefix; otherwise the synthetic key `legacy_<fallback_index>`.
(`raw.headD 0` models `raw[0]`; all call sites have nonempty `raw`.) -/
def creds_to_entity (raw : List Nat) (fallback_index : Nat) : String :=
  let pre := raw.headD 0
  if (pre = 1 ∨ pre = 2) ∧ raw.length = 32 then
    "0x" ++ bytesToHex (raw.drop 12)
  else
    "legacy_" ++ toString fallback_index

theorem string_append_ne_empty (s t : String) (h : s.length ≠ 0) :
    s ++ t ≠ "" := by
  intro he
  have hl : s.length + t.length = 0 := by
    have := congrArg String.length he
    simpa [String.length_append] using this
  exact h (Nat.eq_zero_of_add_eq_zero_right hl)

theorem creds_to_entity_ne_empty (raw : List Nat) (fb : Nat) :
    creds_to_entity raw fb ≠ "" := by
  by_cases hc : ((raw.headD 0 = 1 ∨ raw.headD 0 = 2) ∧ raw.length = 32)
  · simp only [creds_to_entity, if_pos hc]
    exact string_append_ne_empty _ _ (by decide)
  · simp only [creds_to_entity, if_neg hc]
    exact string_append_ne_empty _ _ (by decide)

/-- Claim C4: on 32-byte credentials, discriminant byte 1 or 2 yields the
lowercase hex address of the last 20 bytes with `0x` prefix (the given
example credential resolves to the 40-`a` address), any other
discriminant yields `legacy_<fallback_index>`, and the result is always
a single non-empty entity key. -/
theorem C4_entity_resolver (raw : List Nat) (fb : Nat) (hlen : raw.length = 32) :
    ((raw.headD 0 = 1 ∨ raw.headD 0 = 2) →
        creds_to_entity raw fb = "0x" ++ bytesToHex (raw.drop 12) ∧
        (raw.drop 12).length = 20) ∧
    ((raw.headD 0 ≠ 1 ∧ raw.headD 0 ≠ 2) →
        creds_to_entity raw fb = "legacy_" ++ toString fb) ∧
    creds_to_entity raw fb ≠ "" ∧
    creds_to_entity (1 :: (List.replicate 11 0 ++ List.replicate 20 170)) 7 =
      "0xaaaaaaaaaaaaaaaaaaaaaaaaaaaaaaaaaaaaaaaa" := by
  refine ⟨?_, ?_, creds_to_entity_ne_empty raw fb, by decide⟩
  · intro hpre
    constructor
    · simp only [creds_to_entity, if_pos (And.intro hpre hlen)]
    · simp [hlen]
  · intro h12
    have hneg : ¬ ((raw.headD 0 = 1 ∨ raw.headD 0 = 2) ∧ raw.length = 32) := by
      intro hc
      rcases hc.1 with h | h
      · exact h12.1 h
      · exact h12.2 h
    simp only [creds_to_entity, if_neg hneg]

/-- Witness for C4 at the example credential `0x01 ∥ 0^11 ∥ aa^20`. -/
theorem C4_entity_resolver_witness :
    creds_to_entity (1 :: (List.replicate 11 0 ++ List.replicate 20 170)) 3 =
      "0x" ++ bytesToHex ((1 :: (List.replicate 11 0 ++ List.replicate 20 170)).drop 12) := by
  exact (C4_entity_resolver (1 :: (List.replicate 11 0 ++ List.replicate 20 170)) 3
    (by decide) |>.1 (by decide)).1

/-- Claim C10: a credential whose decoded length is not 32 bytes resolves
to the synthetic legacy key even when the discriminant byte is 1 or 2. -/
theorem C10_short_credential_is_legacy (raw : List Nat) (fb : Nat)
    (hlen : raw.length ≠ 32) :
    creds_to_entity raw fb = "legacy_" ++ toString fb := by
  unfold creds_to_entity
  rw [if_neg]
  intro ⟨_, h32⟩
  exact hlen h32

/-- Witness for C10: a 21-byte credential with discriminant 1 is legacy. -/
theorem C10_short_credential_is_legacy_witness :
    creds_to_entity (1 :: List.replicate 20 170) 5 = "legacy_" ++ toString 5 :=
  C10_short_credential_is_legacy (1 :: List.replicate 20 170) 5 (by decide)

/-! ### Period aggregator
The inner loop of `aggregate_over_weeks` (`chatgpt/ethereum_chatgpt.py`,
lines 254-299): one `ValRow` per validator returned for the week's
epoch, state `prev_balance` / `issuance_entity` / `stake_entity`, and
the share-normalization step shared with `aggregate_by_coldkey`
(`chatgpt/bittensor_get_emissions.py`, lines 210-214). -/

/-- One row of the weekly balance-history snapshot. -/
structure ValRow where
  validator_index : Nat
  balance_gwei : Int
  effectivebalance_gwei : Int
deriving DecidableEq

/-- The aggregator's running state: `prev_balance` (validator to last
seen balance) and per-entity totals for the current week.  The entity
key is `Option String` because `idx_to_entity.get(vidx)` can be `None`. -/
structure WeekState where
  prev_balance : List (Nat × Int)
  issuance_entity : List (Option String × Int)
  stake_entity : List (Option String × Int)
deriving DecidableEq

/-- The issuance delta of one validator row:
`0` when no previous balance is known, else `bal - prev` clamped to
positive values (`delta if delta > 0 else 0`). -/
def delta_pos (prev : Option Int) (bal : Int) : Int :=
  match prev with
  | none => 0
  | some p => if bal - p > 0 then bal - p else 0

/-- The body of the per-validator loop in `aggregate_over_weeks`. -/
def processRow (idx_to_entity : List (Nat × String)) (st : WeekState)
    (row : ValRow) : WeekState :=
  let ent := dictGet? idx_to_entity row.validator_index
  let bal := row.balance_gwei
  let eff := row.effectivebalance_gwei
  let dp := delta_pos (dictGet? st.prev_balance row.validator_index) bal
  { prev_balance := dictInsert st.prev_balance row.validator_index bal
    issuance_entity :=
      dictInsert st.issuance_entity ent (dictGetD st.issuance_entity ent 0 + dp)
    stake_entity :=
      dictInsert st.stake_entity ent (dictGetD st.stake_entity ent 0 + eff) }

/-- All validator rows of one week, in order. -/
def processWeek (idx_to_entity : List (Nat × String)) (st : WeekState)
    (rows : List ValRow) : WeekState :=
  rows.foldl (processRow idx_to_entity) st

/-- The period-wide total of an entity-totals mapping. -/
def totalOf {κ : Type} (totals : List (κ × ℚ)) : ℚ :=
  (totals.map (fun p => p.2)).sum

/-- The share-normalization step of both aggregators:
`share = v / total if total > 0 else 0`, computed per entity. -/
def sharesList {κ : Type} (totals : List (κ × ℚ)) : List (κ × ℚ) :=
  totals.map (fun p =>
    (p.1, if 0 < totalOf totals then p.2 / totalOf totals else 0))

/-- The reward-share rows of one week of `aggregate_over_weeks`
(integer gwei totals divided in float arithmetic). -/
def weekShares (issuance_entity : List (Option String × Int)) :
    List (Option String × ℚ) :=
  sharesList (issuance_entity.map (fun p => (p.1, (p.2 : ℚ))))

theorem sum_map_div {κ : Type} (l : List (κ × ℚ)) (c : ℚ) :
    (l.map (fun p => p.2 / c)).sum = (l.map (fun p => p.2)).sum / c := by
  induction l with
  | nil => simp
  | cons p rest ih => simp [ih, add_div]

/-- Claim C1: each entity's share is its total divided by the
period-wide total; when the period total is positive the shares sum to
exactly 1, and when the period total is 0 every share is 0. -/
theorem C1_share_normalization {κ : Type} (totals : List (κ × ℚ)) :
    (0 < totalOf totals →
      sharesList totals = totals.map (fun p => (p.1, p.2 / totalOf totals)) ∧
      ((sharesList totals).map (fun p => p.2)).sum = 1) ∧
    (totalOf totals = 0 → ∀ q ∈ sharesList totals, q.2 = 0) := by
  constructor
  · intro hT
    have hmap : sharesList totals =
        totals.map (fun p => (p.1, p.2 / totalOf totals)) := by
      simp [sharesList, if_pos hT]
    refine ⟨hmap, ?_⟩
    rw [hmap, List.map_map]
    show (totals.map (fun p => p.2 / totalOf totals)).sum = 1
    rw [sum_map_div]
    exact div_self (ne_of_gt hT)
  · intro hT q hq
    have hneg : ¬ (0 < totalOf totals) := by rw [hT]; exact lt_irrefl 0
    rw [sharesList] at hq
    simp only [if_neg hneg] at hq
    obtain ⟨p, _, hpq⟩ := List.mem_map.mp hq
    rw [← hpq]

/-- Witness for C1 at totals `[(a,3),(b,1)]` (positive period total). -/
theorem C1_share_normalization_witness :
    sharesList [(0, (3 : ℚ)), (1, 1)] =
      [(0, (3 : ℚ) / totalOf [(0, (3 : ℚ)), (1, 1)]),
       (1, (1 : ℚ) / totalOf [(0, (3 : ℚ)), (1, 1)])] ∧
    ((sharesList [(0, (3 : ℚ)), (1, 1)]).map (fun p => p.2)).sum = 1 := by
  have h := (C1_share_normalization [((0 : Nat), (3 : ℚ)), (1, 1)]).1
    (by norm_num [totalOf])
  exact ⟨by rw [h.1]; rfl, h.2⟩

/-- Claim C3: the flow aggregator contributes 0 for a newly observed
subject and records its balance; otherwise it contributes the positive
part of `current - previous`; the end-to-end examples
(no prior, 500) ↦ 0, (500, 700) ↦ 200, (700, 600) ↦ 0 hold. -/
theorem C3_flow_delta (ents : List (Nat × String)) (st : WeekState)
    (row : ValRow) :
    (dictGet? st.prev_balance row.validator_index = none →
      delta_pos (dictGet? st.prev_balance row.validator_index)
        row.balance_gwei = 0) ∧
    (∀ p, dictGet? st.prev_balance row.validator_index = some p →
      (0 < row.balance_gwei - p →
        delta_pos (dictGet? st.prev_balance row.validator_index)
          row.balance_gwei = row.balance_gwei - p) ∧
      (row.balance_gwei - p < 0 →
        delta_pos (dictGet? st.prev_balance row.validator_index)
          row.balance_gwei = 0)) ∧
    dictGet? (processRow ents st row).prev_balance row.validator_index =
      some row.balance_gwei ∧
    dictGetD (processRow ents st row).issuance_entity
        (dictGet? ents row.validator_index) 0 =
      dictGetD st.issuance_entity (dictGet? ents row.validator_index) 0 +
        delta_pos (dictGet? st.prev_balance row.validator_index)
          row.balance_gwei ∧
    delta_pos none 500 = 0 ∧ delta_pos (some 500) 700 = 200 ∧
    delta_pos (some 700) 600 = 0 := by
  refine ⟨?_, ?_, ?_, ?_, by decide, by decide, by decide⟩
  · intro h; rw [h]; rfl
  · intro p h
    rw [h]
    constructor
    · intro hpos
      show (if row.balance_gwei - p > 0 then row.balance_gwei - p else 0) =
        row.balance_gwei - p
      rw [if_pos hpos]
    · intro hneg
      show (if row.balance_gwei - p > 0 then row.balance_gwei - p else 0) = 0
      rw [if_neg (by omega)]
  · show dictGet? (dictInsert st.prev_balance row.validator_index
      row.balance_gwei) row.validator_index = some row.balance_gwei
    exact dictGet_insert_self _ _ _
  · show dictGetD (dictInsert st.issuance_entity
        (dictGet? ents row.validator_index)
        (dictGetD st.issuance_entity (dictGet? ents row.validator_index) 0 +
          delta_pos (dictGet? st.prev_balance row.validator_index)
            row.balance_gwei))
        (dictGet? ents row.validator_index) 0 = _
    rw [dictGetD, dictGet_insert_self]
    rfl

/-- Witness for C3: a fresh validator with balance 500 contributes 0. -/
theorem C3_flow_delta_witness :
    delta_pos (dictGet? ([] : List (Nat × Int)) 0) 500 = 0 :=
  (C3_flow_delta [] ⟨[], [], []⟩ ⟨0, 500, 10⟩).1 rfl

/-! ### Sample weighting
`build_sampled_validator_set` from `chatgpt/preprocess_validators.py`:
validators of the top entities are all kept with weight 1.0, tail
entities are down-sampled to at most `tail_sample_per_entity`
validators, each carrying weight `n_total / n_keep`. -/

/-- Number of validators an entity runs in the full roster. -/
def entityCount (df_all : List (Nat × String)) (ent : String) : Nat :=
  (df_all.filter (fun p => p.2 = ent)).length

/-- `group.sample(n=n_keep, random_state=...)` with
`n_keep = min(n_total, tail_sample_per_entity)`; the random choice is
modelled as keeping the first `n_keep` rows (only the count matters to
the weight). -/
def sampleTailKeep (group : List (Nat × String)) (cap : Nat) :
    List (Nat × String) :=
  group.take (min group.length cap)

/-- `weight = float(n_total) / float(n_keep)` for a tail entity. -/
def tailWeight (nTotal cap : Nat) : ℚ :=
  (nTotal : ℚ) / ((min nTotal cap : Nat) : ℚ)

/-- The sample weight attached to every validator of entity `ent`:
1.0 for whale entities, `n_total / n_keep` for tail entities. -/
def sampleWeightOf (df_all : List (Nat × String)) (whales : List String)
    (cap : Nat) (ent : String) : ℚ :=
  if ent ∈ whales then 1 else tailWeight (entityCount df_all ent) cap

/-- Modelled from the spec: the weighted per-entity issuance total the
claim asserts the period aggregator produces — each subject's
contribution scaled by its `sample_weight` (`aggregate_over_weeks`
itself contains no such scaling). -/
def claimedWeightedIssuance (weight : Nat → ℚ)
    (contribs : List (Nat × Int)) : ℚ :=
  (contribs.map (fun p => weight p.1 * (p.2 : ℚ))).sum

/-- Counterexample to claim C9: entity `e` runs validators 0 and 1, the
sample keeps validator 0 alone with weight 2; when validator 0 earns a
delta of 100, `aggregate_over_weeks` records an entity total of 100,
not the weighted 200 the claim asserts — the aggregator never reads
`sample_weight`. -/
theorem C9_weights_not_applied_counterexample :
    sampleWeightOf [(0, "e"), (1, "e")] [] 1 "e" = 2 ∧
    ((dictGetD (processWeek [(0, "e"), (1, "e")] ⟨[(0, 400)], [], []⟩
        [⟨0, 500, 0⟩]).issuance_entity (some "e") 0 : ℤ) : ℚ) = 100 ∧
    claimedWeightedIssuance
      (fun _ => sampleWeightOf [(0, "e"), (1, "e")] [] 1 "e") [(0, 100)] = 200 ∧
    ((dictGetD (processWeek [(0, "e"), (1, "e")] ⟨[(0, 400)], [], []⟩
        [⟨0, 500, 0⟩]).issuance_entity (some "e") 0 : ℤ) : ℚ) ≠
      claimedWeightedIssuance
        (fun _ => sampleWeightOf [(0, "e"), (1, "e")] [] 1 "e") [(0, 100)] := by
  refine ⟨?_, ?_, ?_, ?_⟩ <;>
    norm_num [claimedWeightedIssuance, sampleWeightOf, tailWeight, entityCount,
      processWeek, processRow, delta_pos, dictGetD, dictGet_cons, dictInsert,
      dictGet_nil, List.filter, Nat.min_def]

/-- Claim C9 (amended): the weight formula of sample construction is as
claimed — 1.0 for whale entities, `n_total / min(n_total, cap)` for
tail entities whose sampled count is `min(n_total, cap)` — but the
period aggregator applies no weight: each row increments its entity's
issuance total by the bare `delta_pos` contribution. -/
theorem C9_sample_weights_amended (df_all : List (Nat × String))
    (whales : List String) (cap : Nat) (ent : String)
    (group : List (Nat × String)) :
    (ent ∈ whales → sampleWeightOf df_all whales cap ent = 1) ∧
    (ent ∉ whales →
      sampleWeightOf df_all whales cap ent =
        (entityCount df_all ent : ℚ) /
          ((min (entityCount df_all ent) cap : Nat) : ℚ)) ∧
    (sampleTailKeep group cap).length = min group.length cap ∧
    (∀ (ents : List (Nat × String)) (st : WeekState) (row : ValRow),
      dictGetD (processRow ents st row).issuance_entity
          (dictGet? ents row.validator_index) 0 =
        dictGetD st.issuance_entity (dictGet? ents row.validator_index) 0 +
          delta_pos (dictGet? st.prev_balance row.validator_index)
            row.balance_gwei) := by
  refine ⟨?_, ?_, ?_, ?_⟩
  · intro h; simp [sampleWeightOf, h]
  · intro h; simp [sampleWeightOf, h, tailWeight]
  · simp only [sampleTailKeep, List.length_take]
    omega
  · intro ents st row
    show dictGetD (dictInsert st.issuance_entity
        (dictGet? ents row.validator_index)
        (dictGetD st.issuance_entity (dictGet? ents row.validator_index) 0 +
          delta_pos (dictGet? st.prev_balance row.validator_index)
            row.balance_gwei))
        (dictGet? ents row.validator_index) 0 = _
    rw [dictGetD, dictGet_insert_self]
    rfl

/-- Witness for the amended C9 at a whale entity. -/
theorem C9_sample_weights_amended_witness :
    sampleWeightOf [(0, "e")] ["e"] 5 "e" = 1 :=
  (C9_sample_weights_amended [(0, "e")] ["e"] 5 "e" []).1 (by decide)

/-! ### Rate-limited API client
`Taostats.get` from `chatgpt/bittensor_get_emissions.py` (lines 57-63)
and `old/bittensor_get_emissions.py` (lines 30-36): any response with
`status_code >= 400` raises `RuntimeError(f"{status} {text[:300]}")`,
anything below 400 returns the parsed body. -/

/-- An HTTP response with parsed JSON body of type `J`. -/
structure HttpResp (J : Type) where
  status : Nat
  text : String
  json : J

/-- The only exception class `Taostats.get` raises. -/
inductive GetError where
  | runtimeError (msg : String)
deriving DecidableEq

/-- Observation of the exception class of a `GetError`. -/
def isRuntimeError : GetError → Bool
  | .runtimeError _ => true

/-- `Taostats.get`: raise `RuntimeError` with status and a 300-character
body excerpt on any status ≥ 400, else return the parsed body. -/
def taostats_get {J : Type} (r : HttpResp J) : Except GetError J :=
  if 400 ≤ r.status then
    .error (.runtimeError (toString r.status ++ " " ++ r.text.take 300))
  else
    .ok r.json

/-- The error taxonomy claimed by the spec (not present in the code). -/
inductive SpecCallError where
  | transientError (msg : String)
  | fatalError (msg : String)
deriving DecidableEq

/-- Modelled from the spec: the claimed client behaviour — a distinct,
retryable `TransientError` on 429/5xx and a distinct, non-retryable
`FatalError` on other 4xx. -/
def spec_call {J : Type} (r : HttpResp J) : Except SpecCallError J :=
  if r.status = 429 ∨ 500 ≤ r.status then
    .error (.transientError (toString r.status ++ " " ++ r.text.take 300))
  else if 400 ≤ r.status then
    .error (.fatalError (toString r.status ++ " " ++ r.text.take 300))
  else
    .ok r.json

/-- Counterexample to claim C8: on status 429 and on status 404 the
client raises the one and only `RuntimeError` class — every error it
can produce is a `runtimeError` — whereas the claimed taxonomy puts
429 and 404 in two distinct error classes. -/
theorem C8_error_taxonomy_counterexample :
    taostats_get { status := 429, text := "busy", json := () } =
      .error (.runtimeError (toString (429 : Nat) ++ " " ++ "busy".take 300)) ∧
    taostats_get { status := 404, text := "busy", json := () } =
      .error (.runtimeError (toString (404 : Nat) ++ " " ++ "busy".take 300)) ∧
    isRuntimeError (.runtimeError (toString (429 : Nat) ++ " " ++ "busy".take 300)) =
      isRuntimeError (.runtimeError (toString (404 : Nat) ++ " " ++ "busy".take 300)) ∧
    spec_call { status := 429, text := "busy", json := () } =
      .error (.transientError (toString (429 : Nat) ++ " " ++ "busy".take 300)) ∧
    spec_call { status := 404, text := "busy", json := () } =
      .error (.fatalError (toString (404 : Nat) ++ " " ++ "busy".take 300)) ∧
    SpecCallError.transientError (toString (429 : Nat) ++ " " ++ "busy".take 300) ≠
      SpecCallError.fatalError (toString (404 : Nat) ++ " " ++ "busy".take 300) := by
  refine ⟨rfl, rfl, ?_, rfl, rfl, ?_⟩
  · show (true : Bool) = true
    rfl
  · intro h
    exact SpecCallError.noConfusion h

/-- Claim C8 (amended): the client raises a single `RuntimeError` —
carrying the status code and a 300-character truncated body excerpt —
for every status ≥ 400 (429, 5xx and other 4xx alike, with no
retryable/fatal distinction), and returns the parsed body for every
status below 400. -/
theorem C8_single_error_class_amended {J : Type} (r : HttpResp J) :
    (400 ≤ r.status →
      taostats_get r =
        .error (.runtimeError (toString r.status ++ " " ++ r.text.take 300))) ∧
    (r.status < 400 → taostats_get r = .ok r.json) := by
  constructor
  · intro h
    simp [taostats_get, if_pos h]
  · intro h
    have : ¬ 400 ≤ r.status := by omega
    simp [taostats_get, if_neg this]

/-- Witness for the amended C8 at a concrete 429 response. -/
theorem C8_single_error_class_amended_witness :
    taostats_get { status := 429, text := "tooManyRequests", json := (5 : Nat) } =
      .error (.runtimeError (toString (429 : Nat) ++ " " ++
        "tooManyRequests".take 300)) :=
  (C8_single_error_class_amended
    { status := 429, text := "tooManyRequests", json := (5 : Nat) }).1 (by decide)

/-! ### Paginator
The `while True` pagination loop of `fetch_snapshot_before`
(`chatgpt/bittensor_get_emissions.py`, lines 89-164): start at page 1,
stop on an empty `data` array, otherwise append the page's rows and
advance — unconditionally when the payload carries no `total_pages`,
else until `page >= total_pages`.  The unbounded loop is embedded with
explicit fuel. -/

/-- One page payload: its `data` rows and the optional
`pagination.total_pages` field. -/
structure PagePayload (R : Type) where
  data : List R
  total_pages : Option Nat

/-- The pagination loop, `fuel` bounding the number of iterations. -/
def paginateAux {R : Type} (src : Nat → PagePayload R) :
    Nat → Nat → List R
  | 0, _ => []
  | fuel + 1, page =>
    if (src page).data.isEmpty then []
    else
      (src page).data ++
        (match (src page).total_pages with
         | none => paginateAux src fuel (page + 1)
         | some tp =>
           if tp ≤ page then [] else paginateAux src fuel (page + 1))

/-- The row-collection phase of `fetch_snapshot_before`: paginate from
page 1. -/
def fetch_snapshot_before_rows {R : Type} (src : Nat → PagePayload R)
    (fuel : Nat) : List R :=
  paginateAux src fuel 1

/-- The list `[a, a+1, ..., a+n-1]` of requested page numbers. -/
def pagesFrom (a : Nat) : Nat → List Nat
  | 0 => []
  | n + 1 => a :: pagesFrom (a + 1) n

theorem paginateAux_eq {R : Type} (src : Nat → PagePayload R) (k : Nat)
    (hk : (src k).data = [])
    (hmid : ∀ i, 1 ≤ i → i < k → (src i).data ≠ [] ∧
      (∀ tp, (src i).total_pages = some tp → i < tp)) :
    ∀ fuel page, 1 ≤ page → page ≤ k → k - page < fuel →
      paginateAux src fuel page =
        ((pagesFrom page (k - page)).map (fun i => (src i).data)).flatten := by
  intro fuel
  induction fuel with
  | zero => intro page _ _ hlt; omega
  | succ fuel ih =>
    intro page hp1 hpk hlt
    by_cases hpage : page = k
    · subst hpage
      have : (src page).data.isEmpty = true := by rw [hk]; rfl
      simp [paginateAux, this, pagesFrom, Nat.sub_self]
    · have hplt : page < k := lt_of_le_of_ne hpk hpage
      obtain ⟨hne, htp⟩ := hmid page hp1 hplt
      have hemp : (src page).data.isEmpty = false := by
        cases hdata : (src page).data
        · exact absurd hdata hne
        · rfl
      have hstep : k - page = (k - (page + 1)) + 1 := by omega
      rw [hstep]
      have hrec := ih (page + 1) (by omega) (by omega) (by omega)
      cases htpcase : (src page).total_pages with
      | none =>
        simp only [paginateAux, hemp, Bool.false_eq_true, if_false, htpcase,
          pagesFrom, List.map_cons, List.flatten_cons]
        rw [hrec]
      | some tp =>
        have hptp : page < tp := htp tp htpcase
        simp only [paginateAux, hemp, Bool.false_eq_true, if_false, htpcase,
          pagesFrom, List.map_cons, List.flatten_cons]
        rw [if_neg (by omega), hrec]

/-- Claim C7: the paginator starts at page 1 and, when page `k` is the
first to come back empty (no earlier `total_pages` cutoff applying),
stops there and returns exactly the rows of pages `1..k-1` in order. -/
theorem C7_paginator {R : Type} (src : Nat → PagePayload R) (k fuel : Nat)
    (hk1 : 1 ≤ k)
    (hmid : ∀ i, 1 ≤ i → i < k → (src i).data ≠ [] ∧
      (∀ tp, (src i).total_pages = some tp → i < tp))
    (hk : (src k).data = [])
    (hfuel : k - 1 < fuel) :
    fetch_snapshot_before_rows src fuel =
      ((pagesFrom 1 (k - 1)).map (fun i => (src i).data)).flatten :=
  paginateAux_eq src k hk hmid fuel 1 le_rfl hk1 hfuel

/-- The 3-page mock source of end-to-end scenario 1: pages 1 and 2
yield two records each, page 3 is empty. -/
def mockPages : Nat → PagePayload Nat :=
  fun page =>
    if page = 1 then ⟨[10, 11], none⟩
    else if page = 2 then ⟨[20, 21], none⟩
    else ⟨[], none⟩

/-- Witness for C7: the mock 3-page source (2, 2, 0 records) yields
exactly the 4 records of the first two pages. -/
theorem C7_paginator_witness :
    fetch_snapshot_before_rows mockPages 3 = [10, 11, 20, 21] ∧
    (fetch_snapshot_before_rows mockPages 3).length = 4 := by
  have h := C7_paginator mockPages 3 3 (by omega)
    (fun i h1 h2 => by
      interval_cases i <;>
        exact ⟨by decide, fun tp htp => Option.noConfusion htp⟩)
    rfl (by omega)
  rw [h]
  exact ⟨rfl, rfl⟩

/-! ### Snapshot deduplicator
The dedup phase of `fetch_snapshot_before`
(`chatgpt/bittensor_get_emissions.py`, lines 169-178): sort by
`[hotkey, block_number desc, ts_parsed desc]` with missing values
last, and keep the first row per hotkey.  The selection is embedded as
its observable effect — per hotkey, the record maximal in the
lexicographic key (block number first, `NaN`/`NaT` below every value,
timestamp as tie-break). -/

/-- One normalized metagraph-history record. -/
structure MRow where
  hotkey : String
  block_number : Option Int
  ts_parsed : Option Int
  effective_stake_rao : ℚ
  reward_rate_rao : ℚ
deriving DecidableEq

/-- `pd.to_numeric(..., errors="coerce")` order with NaN sorted last in
a descending sort: a missing value is below every number. -/
def toWB : Option Int → WithBot ℤ
  | none => (⊥ : WithBot ℤ)
  | some x => (x : WithBot ℤ)

/-- The dedup ordering key: block number first, timestamp second. -/
def rowKey (r : MRow) : Lex (WithBot ℤ × WithBot ℤ) :=
  toLex (toWB r.block_number, toWB r.ts_parsed)

/-- Fold step of the dedup: keep, per hotkey, the first-seen record
among those with the maximal ordering key. -/
def dedupStep (acc : List (String × MRow)) (r : MRow) : List (String × MRow) :=
  match dictGet? acc r.hotkey with
  | none => dictInsert acc r.hotkey r
  | some cur =>
    if rowKey cur < rowKey r then dictInsert acc r.hotkey r else acc

/-- `df.sort_values(["hotkey", "block_number", "ts_parsed"],
ascending=[True, False, False]).drop_duplicates(subset=["hotkey"],
keep="first")`: one row per hotkey, the one with the maximal
(block number, timestamp) key. -/
def dedupLatest (rows : List MRow) : List MRow :=
  (rows.foldl dedupStep []).map (fun p => p.2)

theorem mem_dictInsert_nodup {α β : Type} [DecidableEq α]
    {d : List (α × β)} {k : α} {v : β} {p : α × β}
    (hnd : (d.map (fun q => q.1)).Nodup) (hp : p ∈ dictInsert d k v) :
    p = (k, v) ∨ (p ∈ d ∧ p.1 ≠ k) := by
  induction d with
  | nil => simpa [dictInsert_nil] using hp
  | cons q rest ih =>
    obtain ⟨a, b⟩ := q
    simp only [List.map_cons, List.nodup_cons] at hnd
    by_cases hak : a = k
    · subst hak
      rw [dictInsert_cons, if_pos rfl] at hp
      rcases List.mem_cons.mp hp with h1 | h2
      · exact Or.inl h1
      · refine Or.inr ⟨List.mem_cons_of_mem _ h2, ?_⟩
        intro he
        exact hnd.1 (by
          rw [← he]
          exact List.mem_map.mpr ⟨p, h2, rfl⟩)
    · rw [dictInsert_cons, if_neg hak] at hp
      rcases List.mem_cons.mp hp with h1 | h2
      · exact Or.inr ⟨by simp [h1], by simp [h1, hak]⟩
      · rcases ih hnd.2 h2 with h3 | h4
        · exact Or.inl h3
        · exact Or.inr ⟨List.mem_cons_of_mem _ h4.1, h4.2⟩

theorem dictKeys_insert_none {α β : Type} [DecidableEq α]
    (d : List (α × β)) (k : α) (v : β) (h : dictGet? d k = none) :
    (dictInsert d k v).map (fun q => q.1) = d.map (fun q => q.1) ++ [k] := by
  induction d with
  | nil => rfl
  | cons q rest ih =>
    obtain ⟨a, b⟩ := q
    rw [dictGet_cons] at h
    by_cases hak : a = k
    · rw [if_pos hak] at h
      simp at h
    · rw [if_neg hak] at h
      simp [dictInsert_cons, if_neg hak, ih h]

theorem dictKeys_insert_some {α β : Type} [DecidableEq α]
    (d : List (α × β)) (k : α) (v u : β) (h : dictGet? d k = some u) :
    (dictInsert d k v).map (fun q => q.1) = d.map (fun q => q.1) := by
  induction d with
  | nil => simp [dictGet_nil] at h
  | cons q rest ih =>
    obtain ⟨a, b⟩ := q
    rw [dictGet_cons] at h
    by_cases hak : a = k
    · simp [dictInsert_cons, if_pos hak, hak]
    · rw [if_neg hak] at h
      simp [dictInsert_cons, if_neg hak, ih h]

theorem dictGet_of_mem_nodup {α β : Type} [DecidableEq α]
    {d : List (α × β)} (hnd : (d.map (fun q => q.1)).Nodup)
    {p : α × β} (hp : p ∈ d) : dictGet? d p.1 = some p.2 := by
  induction d with
  | nil => simp at hp
  | cons q rest ih =>
    obtain ⟨a, b⟩ := q
    simp only [List.map_cons, List.nodup_cons] at hnd
    rcases List.mem_cons.mp hp with h1 | h2
    · rw [h1, dictGet_cons, if_pos rfl]
    · have hne : a ≠ p.1 := by
        intro he
        exact hnd.1 (by
          rw [he]
          exact List.mem_map.mpr ⟨p, h2, rfl⟩)
      rw [dictGet_cons, if_neg hne]
      exact ih hnd.2 h2

theorem dedupStep_none (acc : List (String × MRow)) (r : MRow)
    (h : dictGet? acc r.hotkey = none) :
    dedupStep acc r = dictInsert acc r.hotkey r := by
  unfold dedupStep
  rw [h]

theorem dedupStep_some (acc : List (String × MRow)) (r cur : MRow)
    (h : dictGet? acc r.hotkey = some cur) :
    dedupStep acc r =
      if rowKey cur < rowKey r then dictInsert acc r.hotkey r else acc := by
  unfold dedupStep
  rw [h]

/-- Invariant of the dedup fold: every stored entry is keyed by its
record's hotkey, comes from the processed rows, and dominates every
processed row of its hotkey; keys are unique; every processed hotkey
is stored. -/
def DedupInv (processed : List MRow) (acc : List (String × MRow)) : Prop :=
  (∀ p ∈ acc, p.2.hotkey = p.1 ∧ p.2 ∈ processed ∧
    ∀ s ∈ processed, s.hotkey = p.1 → rowKey s ≤ rowKey p.2) ∧
  (acc.map (fun p => p.1)).Nodup ∧
  (∀ s ∈ processed, ∃ v, dictGet? acc s.hotkey = some v)

theorem dedupInv_nil : DedupInv [] [] :=
  ⟨by simp, by simp, by simp⟩

theorem dedupStep_inv (processed : List MRow) (acc : List (String × MRow))
    (r : MRow) (h : DedupInv processed acc) :
    DedupInv (processed ++ [r]) (dedupStep acc r) := by
  obtain ⟨hmax, hnd, hcov⟩ := h
  cases hget : dictGet? acc r.hotkey with
  | none =>
    rw [dedupStep_none acc r hget]
    refine ⟨?_, ?_, ?_⟩
    · intro p hp
      rcases mem_dictInsert_nodup hnd hp with h1 | h2
      · rw [h1]
        refine ⟨rfl, List.mem_append_right _ (by simp), ?_⟩
        intro s hs hsk
        have hsk' : s.hotkey = r.hotkey := hsk
        rcases List.mem_append.mp hs with hs1 | hs2
        · obtain ⟨v, hv⟩ := hcov s hs1
          rw [hsk', hget] at hv
          exact Option.noConfusion hv
        · have hsr : s = r := by simpa using hs2
          rw [hsr]
      · obtain ⟨hpacc, hpne⟩ := h2
        obtain ⟨hk1, hk2, hk3⟩ := hmax p hpacc
        refine ⟨hk1, List.mem_append_left _ hk2, ?_⟩
        intro s hs hsk
        rcases List.mem_append.mp hs with hs1 | hs2
        · exact hk3 s hs1 hsk
        · have hsr : s = r := by simpa using hs2
          rw [hsr] at hsk
          exact absurd hsk.symm hpne
    · rw [dictKeys_insert_none acc r.hotkey r hget]
      rw [List.nodup_append]
      refine ⟨hnd, List.nodup_singleton _, ?_⟩
      intro a ha hb
      have hab : a = r.hotkey := by simpa using hb
      rw [hab] at ha
      obtain ⟨p, hpacc, hpk⟩ := List.mem_map.mp ha
      exact (dictGet_eq_none_not_mem acc r.hotkey hget p hpacc) hpk
    · intro s hs
      rcases List.mem_append.mp hs with hs1 | hs2
      · obtain ⟨v, hv⟩ := hcov s hs1
        by_cases hsr : s.hotkey = r.hotkey
        · rw [hsr, hget] at hv
          exact Option.noConfusion hv
        · refine ⟨v, ?_⟩
          rw [dictGet_insert_ne acc r.hotkey s.hotkey r hsr]
          exact hv
      · have hsr : s = r := by simpa using hs2
        rw [hsr]
        exact ⟨r, dictGet_insert_self acc r.hotkey r⟩
  | some cur =>
    have hcur := hmax (r.hotkey, cur) (dictGet_eq_some_mem acc r.hotkey cur hget)
    rw [dedupStep_some acc r cur hget]
    by_cases hlt : rowKey cur < rowKey r
    · rw [if_pos hlt]
      refine ⟨?_, ?_, ?_⟩
      · intro p hp
        rcases mem_dictInsert_nodup hnd hp with h1 | h2
        · rw [h1]
          refine ⟨rfl, List.mem_append_right _ (by simp), ?_⟩
          intro s hs hsk
          have hsk' : s.hotkey = r.hotkey := hsk
          rcases List.mem_append.mp hs with hs1 | hs2
          · exact le_trans (hcur.2.2 s hs1 hsk') (le_of_lt hlt)
          · have hsr : s = r := by simpa using hs2
            rw [hsr]
        · obtain ⟨hpacc, hpne⟩ := h2
          obtain ⟨hk1, hk2, hk3⟩ := hmax p hpacc
          refine ⟨hk1, List.mem_append_left _ hk2, ?_⟩
          intro s hs hsk
          rcases List.mem_append.mp hs with hs1 | hs2
          · exact hk3 s hs1 hsk
          · have hsr : s = r := by simpa using hs2
            rw [hsr] at hsk
            exact absurd hsk.symm hpne
      · rw [dictKeys_insert_some acc r.hotkey r cur hget]
        exact hnd
      · intro s hs
        rcases List.mem_append.mp hs with hs1 | hs2
        · obtain ⟨v, hv⟩ := hcov s hs1
          by_cases hsr : s.hotkey = r.hotkey
          · rw [hsr]
            exact ⟨r, dictGet_insert_self acc r.hotkey r⟩
          · refine ⟨v, ?_⟩
            rw [dictGet_insert_ne acc r.hotkey s.hotkey r hsr]
            exact hv
        · have hsr : s = r := by simpa using hs2
          rw [hsr]
          exact ⟨r, dictGet_insert_self acc r.hotkey r⟩
    · rw [if_neg hlt]
      refine ⟨?_, hnd, ?_⟩
      · intro p hp
        obtain ⟨hk1, hk2, hk3⟩ := hmax p hp
        refine ⟨hk1, List.mem_append_left _ hk2, ?_⟩
        intro s hs hsk
        rcases List.mem_append.mp hs with hs1 | hs2
        · exact hk3 s hs1 hsk
        · have hsr : s = r := by simpa using hs2
          have hpk : dictGet? acc p.1 = some p.2 := dictGet_of_mem_nodup hnd hp
          have hp1 : p.1 = r.hotkey := by rw [← hsk, hsr]
          rw [hp1, hget] at hpk
          have hpc : cur = p.2 := Option.some.inj hpk
          rw [hsr, ← hpc]
          exact not_lt.mp hlt
      · intro s hs
        rcases List.mem_append.mp hs with hs1 | hs2
        · exact hcov s hs1
        · have hsr : s = r := by simpa using hs2
          rw [hsr]
          exact ⟨cur, hget⟩

theorem dedup_foldl_inv :
    ∀ (rows processed : List MRow) (acc : List (String × MRow)),
      DedupInv processed acc →
      DedupInv (processed ++ rows) (rows.foldl dedupStep acc) := by
  intro rows
  induction rows with
  | nil => intro processed acc h; simpa using h
  | cons r rest ih =>
    intro processed acc h
    have h2 := ih (processed ++ [r]) (dedupStep acc r)
      (dedupStep_inv processed acc r h)
    simpa [List.append_assoc] using h2

/-- The two same-subject records of end-to-end scenario 2. -/
def rowBlk100 : MRow := ⟨"hk", some 100, some 1, 5, 7⟩

/-- The newer (block 105) record of end-to-end scenario 2. -/
def rowBlk105 : MRow := ⟨"hk", some 105, some 2, 6, 8⟩

/-- Claim C2: the deduplicator keeps, per hotkey, exactly one record —
a record of the input that dominates every same-hotkey record in the
(block number, then timestamp) ordering, every input hotkey surviving —
and on the two block-100/block-105 records for one subject it keeps
only the block-105 record. -/
theorem C2_dedup_keeps_newest (rows : List MRow) :
    (∀ r ∈ dedupLatest rows, r ∈ rows ∧
      ∀ s ∈ rows, s.hotkey = r.hotkey → rowKey s ≤ rowKey r) ∧
    ((dedupLatest rows).map (fun r => r.hotkey)).Nodup ∧
    (∀ s ∈ rows, ∃ r ∈ dedupLatest rows, r.hotkey = s.hotkey) ∧
    dedupLatest [rowBlk100, rowBlk105] = [rowBlk105] := by
  have hinv : DedupInv rows (rows.foldl dedupStep []) := by
    have h0 := dedup_foldl_inv rows [] [] dedupInv_nil
    simpa using h0
  obtain ⟨hmax, hnd, hcov⟩ := hinv
  refine ⟨?_, ?_, ?_, ?_⟩
  · intro r hr
    obtain ⟨p, hpacc, hpr⟩ := List.mem_map.mp hr
    obtain ⟨hk1, hk2, hk3⟩ := hmax p hpacc
    rw [← hpr]
    exact ⟨hk2, fun s hs hsk => hk3 s hs (hsk.trans hk1)⟩
  · have h2 : (dedupLatest rows).map (fun r => r.hotkey) =
        (rows.foldl dedupStep []).map (fun p => p.1) := by
      rw [dedupLatest, List.map_map]
      exact List.map_congr_left (fun p hp => (hmax p hp).1)
    rw [h2]
    exact hnd
  · intro s hs
    obtain ⟨v, hv⟩ := hcov s hs
    have hmem := dictGet_eq_some_mem _ _ _ hv
    exact ⟨v, List.mem_map.mpr ⟨(s.hotkey, v), hmem, rfl⟩,
      (hmax (s.hotkey, v) hmem).1⟩
  · have hlt : rowKey rowBlk100 < rowKey rowBlk105 := by
      show toLex (toWB (some 100), toWB (some 1)) <
        toLex (toWB (some 105), toWB (some 2))
      rw [Prod.Lex.lt_iff]
      left
      show ((100 : ℤ) : WithBot ℤ) < ((105 : ℤ) : WithBot ℤ)
      exact_mod_cast (by norm_num : (100 : ℤ) < 105)
    show ((dedupStep (dedupStep [] rowBlk100) rowBlk105).map
      (fun p => p.2)) = [rowBlk105]
    rw [dedupStep_none [] rowBlk100 rfl]
    rw [show dictInsert ([] : List (String × MRow)) rowBlk100.hotkey rowBlk100 =
      [(rowBlk100.hotkey, rowBlk100)] from rfl]
    rw [dedupStep_some [(rowBlk100.hotkey, rowBlk100)] rowBlk105 rowBlk100 rfl]
    rw [if_pos hlt]
    rfl

/-- Witness for C2: in the block-100/block-105 scenario the kept record
is the block-105 one and it dominates the block-100 record. -/
theorem C2_dedup_keeps_newest_witness :
    rowBlk105 ∈ dedupLatest [rowBlk100, rowBlk105] ∧
    rowKey rowBlk100 ≤ rowKey rowBlk105 := by
  have h4 := (C2_dedup_keeps_newest []).2.2.2
  have hmem : rowBlk105 ∈ dedupLatest [rowBlk100, rowBlk105] := by
    rw [h4]
    exact List.mem_singleton_self _
  exact ⟨hmem,
    ((C2_dedup_keeps_newest [rowBlk100, rowBlk105]).1 rowBlk105 hmem).2
      rowBlk100 (by simp) rfl⟩

/-! ### Inequality statistics engine
`gini` from `gini.py` / `eth_working/gini.py` and the Nakamoto
coefficient from `eth_working/gini.py` `main` (lines 44-49).  NumPy
float arrays are embedded as `List ℚ`; `np.sort` of values is
`insertionSort` (the sorted value list is unique, so the sorting
algorithm is irrelevant). -/

/-- The epsilon the code adds so that values cannot be 0. -/
def EPS : ℚ := 1 / 10000000

/-- `np.amin` of a nonempty array (0 on the empty one, unused). -/
def listMin : List ℚ → ℚ
  | [] => 0
  | x :: xs => xs.foldl min x

/-- `sum((2 * index - n - 1) * array)` over the array with 1-indexed
rank `r` counting up. -/
def rankSum (n : ℚ) : ℚ → List ℚ → ℚ
  | _, [] => 0
  | r, x :: xs => (2 * r - n - 1) * x + rankSum n (r + 1) xs

theorem rankSum_nil (n r : ℚ) : rankSum n r [] = 0 := rfl

theorem rankSum_cons (n r x : ℚ) (xs : List ℚ) :
    rankSum n r (x :: xs) = (2 * r - n - 1) * x + rankSum n (r + 1) xs := rfl

/-- The epsilon-shifted, ascending-sorted working array of `gini`. -/
def giniArr (shifted : List ℚ) : List ℚ :=
  List.insertionSort (fun a b => a ≤ b) (shifted.map (fun x => x + EPS))

/-- The gini body applied after the negative-minimum shift: add
epsilon, sort ascending, `sum((2*rank - n - 1) * value) / (n * sum)`. -/
def giniCore (shifted : List ℚ) : ℚ :=
  rankSum (((giniArr shifted).length : ℚ)) 1 (giniArr shifted) /
    (((giniArr shifted).length : ℚ) * (giniArr shifted).sum)

/-- `gini(array)`: subtract the global minimum when it is negative, add
epsilon to every value, sort ascending, return the mean-difference
form. -/
def gini (l : List ℚ) : ℚ :=
  giniCore (if listMin l < 0 then l.map (fun x => x - listMin l) else l)

theorem rankSum_shift (l : List ℚ) : ∀ n r : ℚ,
    rankSum n (r + 1) l = rankSum (n - 1) r l + l.sum := by
  induction l with
  | nil => intro n r; simp [rankSum_nil]
  | cons x xs ih =>
    intro n r
    rw [rankSum_cons, rankSum_cons, List.sum_cons, ih n (r + 1)]
    ring

theorem length_mul_le_sum (l : List ℚ) (x : ℚ) (hx : ∀ y ∈ l, x ≤ y) :
    (l.length : ℚ) * x ≤ l.sum := by
  induction l with
  | nil => simp
  | cons y ys ih =>
    rw [List.sum_cons, List.length_cons]
    have h1 := hx y (List.mem_cons_self _ _)
    have h2 := ih (fun z hz => hx z (List.mem_cons_of_mem _ hz))
    have h3 : ((ys.length + 1 : ℕ) : ℚ) * x = (ys.length : ℚ) * x + x := by
      push_cast
      ring
    rw [h3]
    linarith

theorem rankSum_nonneg_sorted :
    ∀ l : List ℚ, l.Sorted (fun a b => a ≤ b) →
      0 ≤ rankSum ((l.length : ℚ)) 1 l := by
  intro l
  induction l with
  | nil => intro _; simp [rankSum_nil]
  | cons x xs ih =>
    intro hs
    have hs' : xs.Sorted (fun a b => a ≤ b) := (List.sorted_cons.mp hs).2
    have hx : ∀ y ∈ xs, x ≤ y := (List.sorted_cons.mp hs).1
    have hlen : (((x :: xs).length : ℕ) : ℚ) = (xs.length : ℚ) + 1 := by
      push_cast [List.length_cons]
      ring
    rw [rankSum_cons, hlen]
    have hshift := rankSum_shift xs ((xs.length : ℚ) + 1) 1
    rw [show ((xs.length : ℚ) + 1) - 1 = (xs.length : ℚ) by ring] at hshift
    rw [hshift]
    have hsum := length_mul_le_sum xs x hx
    have hih := ih hs'
    nlinarith [hsum, hih]

theorem rankSum_le (l : List ℚ) : ∀ n r c : ℚ, (∀ x ∈ l, 0 ≤ x) →
    (∀ k : ℕ, k < l.length → 2 * (r + (k : ℚ)) - n - 1 ≤ c) →
    rankSum n r l ≤ c * l.sum := by
  induction l with
  | nil => intro n r c _ _; simp [rankSum_nil]
  | cons x xs ih =>
    intro n r c hx hc
    rw [rankSum_cons, List.sum_cons]
    have h0 : 2 * r - n - 1 ≤ c := by
      have := hc 0 (by simp)
      simpa using this
    have hx0 : 0 ≤ x := hx x (List.mem_cons_self _ _)
    have h1 : (2 * r - n - 1) * x ≤ c * x :=
      mul_le_mul_of_nonneg_right h0 hx0
    have h2 : rankSum n (r + 1) xs ≤ c * xs.sum := by
      apply ih n (r + 1) c (fun y hy => hx y (List.mem_cons_of_mem _ hy))
      intro k hk
      have := hc (k + 1) (by simpa using Nat.succ_lt_succ hk)
      push_cast at this ⊢
      linarith
    calc (2 * r - n - 1) * x + rankSum n (r + 1) xs
        ≤ c * x + c * xs.sum := by linarith
      _ = c * (x + xs.sum) := by ring

theorem rankSum_replicate (k : ℕ) : ∀ n r c : ℚ,
    rankSum n r (List.replicate k c) =
      ((k : ℚ) * (2 * r - n - 1) + (k : ℚ) * ((k : ℚ) - 1)) * c := by
  induction k with
  | zero => intro n r c; simp [rankSum_nil]
  | succ k ih =>
    intro n r c
    rw [List.replicate_succ _ _, rankSum_cons, ih n (r + 1) c]
    push_cast
    ring

theorem foldlMin_nonneg :
    ∀ (xs : List ℚ) (x : ℚ), 0 ≤ x → (∀ y ∈ xs, 0 ≤ y) →
      0 ≤ xs.foldl min x := by
  intro xs
  induction xs with
  | nil => intro x hx _; simpa using hx
  | cons y ys ih =>
    intro x hx hy
    rw [List.foldl_cons]
    exact ih (min x y) (le_min hx (hy y (List.mem_cons_self _ _)))
      (fun z hz => hy z (List.mem_cons_of_mem _ hz))

theorem listMin_nonneg (l : List ℚ) (hx : ∀ x ∈ l, 0 ≤ x) : 0 ≤ listMin l := by
  cases l with
  | nil => exact le_refl 0
  | cons x xs =>
    exact foldlMin_nonneg xs x (hx x (List.mem_cons_self _ _))
      (fun y hy => hx y (List.mem_cons_of_mem _ hy))

theorem gini_eq_core (l : List ℚ) (hx : ∀ x ∈ l, 0 ≤ x) :
    gini l = giniCore l := by
  rw [gini, if_neg (not_lt.mpr (listMin_nonneg l hx))]

theorem giniCore_bounds (s : List ℚ) (hne : s ≠ []) (hx : ∀ x ∈ s, 0 ≤ x) :
    0 ≤ giniCore s ∧ giniCore s ≤ 1 := by
  have hperm : List.Perm (giniArr s) (s.map (fun x => x + EPS)) :=
    List.perm_insertionSort _ _
  have hsorted : (giniArr s).Sorted (fun a b => a ≤ b) :=
    List.sorted_insertionSort _ _
  have hlen : (giniArr s).length = s.length := by
    rw [hperm.length_eq, List.length_map]
  have helem : ∀ y ∈ giniArr s, EPS ≤ y := by
    intro y hy
    obtain ⟨x, hxs, hxy⟩ := List.mem_map.mp (hperm.mem_iff.mp hy)
    rw [← hxy]
    have := hx x hxs
    linarith
  have helem0 : ∀ y ∈ giniArr s, 0 ≤ y :=
    fun y hy => le_trans (by norm_num [EPS]) (helem y hy)
  have hlenpos : 1 ≤ s.length := by
    cases s with
    | nil => exact absurd rfl hne
    | cons a as => simp
  have hn1 : (1 : ℚ) ≤ ((giniArr s).length : ℚ) := by
    rw [hlen]
    exact_mod_cast hlenpos
  have hsumlb : ((giniArr s).length : ℚ) * EPS ≤ (giniArr s).sum :=
    length_mul_le_sum (giniArr s) EPS helem
  have hsumpos : 0 < (giniArr s).sum := by
    have h2 : (0 : ℚ) < ((giniArr s).length : ℚ) * EPS := by
      apply mul_pos (by linarith)
      norm_num [EPS]
    linarith
  have hS0 : 0 ≤ rankSum (((giniArr s).length : ℚ)) 1 (giniArr s) :=
    rankSum_nonneg_sorted (giniArr s) hsorted
  have hSle : rankSum (((giniArr s).length : ℚ)) 1 (giniArr s) ≤
      (((giniArr s).length : ℚ) - 1) * (giniArr s).sum := by
    apply rankSum_le (giniArr s) _ 1 _ helem0
    intro k hk
    have hk1 : (k : ℚ) + 1 ≤ ((giniArr s).length : ℚ) := by
      exact_mod_cast Nat.succ_le_of_lt hk
    linarith
  constructor
  · unfold giniCore
    apply div_nonneg hS0
    apply mul_nonneg (by linarith) (le_of_lt hsumpos)
  · unfold giniCore
    rw [div_le_one (by nlinarith)]
    nlinarith

theorem giniArr_singleton (y : ℚ) : giniArr [y] = [y + EPS] := rfl

theorem giniCore_singleton (y : ℚ) : giniCore [y] = 0 := by
  unfold giniCore
  rw [giniArr_singleton, rankSum_cons, rankSum_nil]
  norm_num

theorem gini_singleton (x : ℚ) : gini [x] = 0 := by
  by_cases hm : listMin [x] < 0
  · rw [gini, if_pos hm]
    rw [show ([x].map (fun y => y - listMin [x])) = [x - listMin [x]] from rfl]
    exact giniCore_singleton _
  · rw [gini, if_neg hm]
    exact giniCore_singleton _

theorem giniArr_replicate (k : ℕ) (c : ℚ) :
    giniArr (List.replicate k c) = List.replicate k (c + EPS) := by
  unfold giniArr
  rw [List.map_replicate]
  have hs : (List.replicate k (c + EPS)).Sorted (fun a b => a ≤ b) :=
    List.pairwise_replicate.mpr (Or.inr le_rfl)
  exact hs.insertionSort_eq

theorem giniCore_replicate (k : ℕ) (c : ℚ) :
    giniCore (List.replicate k c) = 0 := by
  unfold giniCore
  rw [giniArr_replicate, List.length_replicate,
    rankSum_replicate k ((k : ℕ) : ℚ) 1 (c + EPS)]
  rw [show ((k : ℚ) * (2 * 1 - (k : ℚ) - 1) + (k : ℚ) * ((k : ℚ) - 1)) *
    (c + EPS) = 0 from by ring]
  rw [zero_div]

theorem gini_replicate (k : ℕ) (c : ℚ) (hc : 0 ≤ c) :
    gini (List.replicate k c) = 0 := by
  have hx : ∀ x ∈ List.replicate k c, 0 ≤ x := by
    intro x hx
    rw [List.eq_of_mem_replicate hx]
    exact hc
  rw [gini_eq_core _ hx]
  exact giniCore_replicate k c

/-- Claim C5: on every nonempty list of non-negative values, `gini`
(negative-minimum shift skipped, epsilon added, sorted ascending,
mean-difference form) lies in `[0, 1]`; a single-element list and any
all-equal list give exactly 0, and the all-zero list gives exactly 0
(the epsilon makes the denominator nonzero, no `NaN`). -/
theorem C5_gini_range (l : List ℚ) (hne : l ≠ []) (hx : ∀ x ∈ l, 0 ≤ x) :
    (0 ≤ gini l ∧ gini l ≤ 1) ∧
    (∀ x : ℚ, gini [x] = 0) ∧
    (∀ (k : ℕ) (c : ℚ), 0 ≤ c → gini (List.replicate k c) = 0) ∧
    (∀ k : ℕ, gini (List.replicate k 0) = 0) := by
  refine ⟨?_, gini_singleton, fun k c hc => gini_replicate k c hc,
    fun k => gini_replicate k 0 le_rfl⟩
  rw [gini_eq_core l hx]
  exact giniCore_bounds l hne hx

/-- Witness for C5 at the concrete distribution `[1, 2, 3]`. -/
theorem C5_gini_range_witness :
    0 ≤ gini [1, 2, 3] ∧ gini [1, 2, 3] ≤ 1 :=
  (C5_gini_range [1, 2, 3] (by simp) (by norm_num)).1

/-- `np.cumsum`. -/
def cumsumList : List ℚ → List ℚ
  | [] => []
  | x :: xs => x :: (cumsumList xs).map (fun y => x + y)

theorem cumsumList_nil : cumsumList [] = [] := rfl

theorem cumsumList_cons (x : ℚ) (xs : List ℚ) :
    cumsumList (x :: xs) = x :: (cumsumList xs).map (fun y => x + y) := rfl

/-- `np.searchsorted(c, v)` (side `left`): on the ascending cumulative
arrays it is applied to, the insertion point equals the number of
entries strictly below `v`. -/
def searchsortedLeft (c : List ℚ) (v : ℚ) : Nat :=
  c.countP (fun x => decide (x < v))

/-- `np.sort(shares)[::-1]`: sort ascending, then reverse. -/
def sortDesc (l : List ℚ) : List ℚ :=
  (List.insertionSort (fun a b => a ≤ b) l).reverse

/-- The Nakamoto computation of `eth_working/gini.py` `main`:
`np.searchsorted(np.cumsum(sorted_shares) / total, 0.33) + 1`. -/
def nakamoto_33 (shares : List ℚ) : Nat :=
  searchsortedLeft
    ((cumsumList (sortDesc shares)).map (fun s => s / shares.sum)) (33 / 100) + 1

/-- Modelled from the spec: the claimed Nakamoto coefficient — the
smallest `k` such that the sum of the `k` largest values divided by the
total is strictly greater than the threshold (out-of-range marker when
no such `k` exists). -/
def nakamotoClaimed (shares : List ℚ) (t : ℚ) : Nat :=
  ((List.range (shares.length + 1)).find?
    (fun k => decide (t < ((sortDesc shares).take k).sum / shares.sum))).getD
    (shares.length + 1)

theorem cumsumList_nonneg (l : List ℚ) (hx : ∀ x ∈ l, 0 ≤ x) :
    ∀ y ∈ cumsumList l, 0 ≤ y := by
  induction l with
  | nil => intro y hy; rw [cumsumList_nil] at hy; simp at hy
  | cons x xs ih =>
    intro y hy
    rw [cumsumList_cons] at hy
    rcases List.mem_cons.mp hy with h1 | h2
    · rw [h1]
      exact hx x (List.mem_cons_self _ _)
    · obtain ⟨z, hz, hzy⟩ := List.mem_map.mp h2
      have h0 := ih (fun a ha => hx a (List.mem_cons_of_mem _ ha)) z hz
      have hx0 := hx x (List.mem_cons_self _ _)
      rw [← hzy]
      show 0 ≤ x + z
      linarith

theorem cumsum_countP_bounds (d : List ℚ) (hd : ∀ x ∈ d, 0 ≤ x) : ∀ v : ℚ,
    ((cumsumList d).countP (fun s => decide (s < v)) ≤ d.length) ∧
    (∀ j : ℕ, 1 ≤ j → j ≤ (cumsumList d).countP (fun s => decide (s < v)) →
      (d.take j).sum < v) ∧
    ((cumsumList d).countP (fun s => decide (s < v)) < d.length →
      v ≤ (d.take ((cumsumList d).countP (fun s => decide (s < v)) + 1)).sum) := by
  induction d with
  | nil =>
    intro v
    refine ⟨by simp [cumsumList_nil], ?_, ?_⟩
    · intro j h1 h2
      rw [cumsumList_nil] at h2
      simp at h2
      omega
    · intro h
      simp at h
  | cons x xs ih =>
    intro v
    have hd' : ∀ a ∈ xs, 0 ≤ a := fun a ha => hd a (List.mem_cons_of_mem _ ha)
    by_cases hxv : x < v
    · have hmapcount : ((cumsumList xs).map (fun y => x + y)).countP
          (fun s => decide (s < v)) =
          (cumsumList xs).countP (fun s => decide (s < v - x)) := by
        rw [List.countP_map]
        apply List.countP_congr
        intro a _
        show decide (x + a < v) = true ↔ decide (a < v - x) = true
        simp only [decide_eq_true_eq]
        constructor <;> intro <;> linarith
      have hm : (cumsumList (x :: xs)).countP (fun s => decide (s < v)) =
          (cumsumList xs).countP (fun s => decide (s < v - x)) + 1 := by
        rw [cumsumList_cons, List.countP_cons, hmapcount]
        simp [hxv]
      obtain ⟨IH1, IH2, IH3⟩ := ih hd' (v - x)
      refine ⟨?_, ?_, ?_⟩
      · rw [hm, List.length_cons]
        omega
      · intro j h1 h2
        rw [hm] at h2
        cases j with
        | zero => omega
        | succ i =>
          rw [List.take_succ_cons, List.sum_cons]
          by_cases hi0 : i = 0
          · rw [hi0]
            simp
            linarith
          · have := IH2 i (by omega) (by omega)
            linarith
      · intro hlt
        rw [hm] at hlt ⊢
        have hlt' : (cumsumList xs).countP (fun s => decide (s < v - x)) <
            xs.length := by
          rw [List.length_cons] at hlt
          omega
        have := IH3 hlt'
        rw [List.take_succ_cons, List.sum_cons]
        linarith
    · have hm0 : (cumsumList (x :: xs)).countP (fun s => decide (s < v)) = 0 := by
        rw [cumsumList_cons, List.countP_cons]
        have h1 : ((cumsumList xs).map (fun y => x + y)).countP
            (fun s => decide (s < v)) = 0 := by
          rw [List.countP_eq_zero]
          intro a ha
          obtain ⟨z, hz, hza⟩ := List.mem_map.mp ha
          have hz0 := cumsumList_nonneg xs hd' z hz
          rw [← hza]
          simp only [decide_eq_true_eq]
          push_neg at hxv
          intro hcon
          linarith
        rw [h1]
        simp [hxv]
      refine ⟨by rw [hm0]; simp, ?_, ?_⟩
      · intro j h1 h2
        rw [hm0] at h2
        omega
      · intro _
        rw [hm0, List.take_succ_cons, List.sum_cons]
        push_neg at hxv
        simp
        linarith

/-- Counterexample to claim C6: on `[33, 33, 18, 16]` the top value is
exactly 33% of the total; the code counts it as sufficient (Nakamoto
of 1) because `np.searchsorted` finds the first cumulative share that
is greater than or equal to the threshold, while the claimed
strictly-greater rule gives 2. -/
theorem C6_threshold_counterexample :
    nakamoto_33 [33, 33, 18, 16] = 1 ∧
    nakamotoClaimed [33, 33, 18, 16] (33 / 100) = 2 ∧
    nakamoto_33 [33, 33, 18, 16] ≠ nakamotoClaimed [33, 33, 18, 16] (33 / 100) := by
  have hsort : sortDesc [33, 33, 18, 16] = [33, 33, 18, 16] := rfl
  have hsum : ([33, 33, 18, 16] : List ℚ).sum = 100 := by norm_num
  have e1 : nakamoto_33 [33, 33, 18, 16] = 1 := by
    have hcum : cumsumList [(33 : ℚ), 33, 18, 16] = [33, 66, 84, 100] := by
      norm_num [cumsumList_cons, cumsumList_nil]
    unfold nakamoto_33 searchsortedLeft
    rw [hsort, hsum, hcum]
    norm_num [List.countP_cons, List.countP_nil]
  have e2 : nakamotoClaimed [33, 33, 18, 16] (33 / 100) = 2 := by
    unfold nakamotoClaimed
    rw [hsort, hsum]
    rw [show ([33, 33, 18, 16] : List ℚ).length + 1 = 5 from rfl]
    rw [show List.range 5 = [0, 1, 2, 3, 4] from rfl]
    rw [List.find?_cons_of_neg _ (by norm_num)]
    rw [List.find?_cons_of_neg _ (by norm_num)]
    rw [List.find?_cons_of_pos _ (by norm_num)]
    rfl
  exact ⟨e1, e2, by rw [e1, e2]; omega⟩

/-- Claim C6 (amended): for non-negative values with positive total,
the Nakamoto computation returns the smallest count `k` of largest
values whose cumulative share reaches **or exceeds** the threshold
0.33 (`np.searchsorted` side `left` uses ≥, not strict >). -/
theorem C6_nakamoto_amended (shares : List ℚ) (hx : ∀ x ∈ shares, 0 ≤ x)
    (hT : 0 < shares.sum) :
    1 ≤ nakamoto_33 shares ∧
    nakamoto_33 shares ≤ shares.length ∧
    33 / 100 ≤ ((sortDesc shares).take (nakamoto_33 shares)).sum / shares.sum ∧
    (∀ j, j < nakamoto_33 shares →
      ((sortDesc shares).take j).sum / shares.sum < 33 / 100) := by
  have hperm : List.Perm (sortDesc shares) shares :=
    (List.reverse_perm _).trans (List.perm_insertionSort _ _)
  have hd_nonneg : ∀ x ∈ sortDesc shares, 0 ≤ x :=
    fun x hxd => hx x (hperm.mem_iff.mp hxd)
  have hd_sum : (sortDesc shares).sum = shares.sum := hperm.sum_eq
  have hd_len : (sortDesc shares).length = shares.length := hperm.length_eq
  have hlen1 : 1 ≤ shares.length := by
    cases shares with
    | nil => simp at hT
    | cons a as => simp
  have hnak : nakamoto_33 shares =
      (cumsumList (sortDesc shares)).countP
        (fun s => decide (s < 33 / 100 * shares.sum)) + 1 := by
    unfold nakamoto_33 searchsortedLeft
    rw [List.countP_map]
    congr 1
    apply List.countP_congr
    intro a _
    show decide (a / shares.sum < 33 / 100) = true ↔
      decide (a < 33 / 100 * shares.sum) = true
    simp only [decide_eq_true_eq]
    exact div_lt_iff₀ hT
  obtain ⟨hB1, hB2, hB3⟩ :=
    cumsum_countP_bounds (sortDesc shares) hd_nonneg (33 / 100 * shares.sum)
  have hmlt : (cumsumList (sortDesc shares)).countP
      (fun s => decide (s < 33 / 100 * shares.sum)) < (sortDesc shares).length := by
    rcases Nat.lt_or_ge ((cumsumList (sortDesc shares)).countP
      (fun s => decide (s < 33 / 100 * shares.sum))) (sortDesc shares).length with
      h | h
    · exact h
    · exfalso
      have heq : (cumsumList (sortDesc shares)).countP
          (fun s => decide (s < 33 / 100 * shares.sum)) =
          (sortDesc shares).length := le_antisymm hB1 h
      have hfull := hB2 (sortDesc shares).length
        (by rw [hd_len]; exact hlen1) (by rw [heq])
      rw [List.take_length _, hd_sum] at hfull
      linarith
  refine ⟨by rw [hnak]; omega, ?_, ?_, ?_⟩
  · rw [hnak]
    rw [hd_len] at hmlt
    omega
  · rw [hnak, le_div_iff₀ hT]
    have := hB3 hmlt
    linarith
  · intro j hj
    rw [hnak] at hj
    rw [div_lt_iff₀ hT]
    cases j with
    | zero =>
      simp only [List.take_zero, List.sum_nil]
      linarith
    | succ i =>
      have := hB2 (i + 1) (by omega) (by omega)
      linarith

/-- Witness for the amended C6 at `[2, 1, 1]`: the top share 1/2
reaches the 0.33 threshold with a single entity. -/
theorem C6_nakamoto_amended_witness :
    33 / 100 ≤ ((sortDesc [2, 1, 1]).take (nakamoto_33 [2, 1, 1])).sum /
      ([2, 1, 1] : List ℚ).sum :=
  (C6_nakamoto_amended [2, 1, 1] (by norm_num) (by norm_num)).2.2.1

end Thesis
